import Mathlib

/- Shallow embedding of src/panns-api/api.py (LockN Listen, PANNs audio
   tagging API). Sample values, probabilities and timestamps are modelled as
   rationals; numpy argsort is modelled as a stable ascending argsort
   (insertion sort by probability, ties keeping original index order). -/

/-- One classified tag (api.py lines 151-153). -/
structure TagResult where
  label : String
  confidence : ℚ
deriving Repr, DecidableEq

/-- One detected sound event (api.py lines 161-164). -/
structure EventDetection where
  event : String
  timestamp_ms : ℚ
  confidence : ℚ
deriving Repr, DecidableEq

/-- Response of the classify endpoint (api.py lines 156-158). -/
structure ClassifyResponse where
  tags : List TagResult
  duration_seconds : ℚ
deriving Repr, DecidableEq

/-- Response of the detect endpoint (api.py lines 167-169). -/
structure DetectResponse where
  events : List EventDetection
  duration_seconds : ℚ
deriving Repr, DecidableEq

/-- The static label-to-domain-event table (api.py lines 178-188). -/
def SPORTS_SOUNDS : List (String × String) :=
  [("Ping-pong ball", "bounce"), ("Table tennis", "game"), ("Bouncing", "bounce"),
   ("Knock", "hit"), ("Tap", "hit"), ("Clapping", "point"), ("Cheering", "point"),
   ("Speech", "voice"), ("Silence", "silence")]

/-- Python `range(0, stop, step)` for a positive step: the multiples of
    `step` below `stop`. (Python raises ValueError on step = 0; the model is
    only used with positive step.) -/
def pyRangeStep (stop step : ℕ) : List ℕ :=
  (List.range ((stop + step - 1) / step)).map (· * step)

/-- Start offsets of the sliding-window loop, api.py line 317:
    `for start in range(0, len(audio) - window_samples, hop_samples)` with
    `hop_samples = window_samples // 2` (line 313). For a clip shorter than
    the window, Python's stop is negative and the range is empty, which
    truncated Nat subtraction reproduces. -/
def windowStarts (n w : ℕ) : List ℕ :=
  pyRangeStep (n - w) (w / 2)

/-- The per-window inner loop, api.py lines 324-332: for each vocabulary
    index, look the label up in SPORTS_SOUNDS and emit a candidate event at
    the window timestamp when the probability is strictly above 0.3. -/
def windowCandidates (labels : List String) (probs : List ℚ) (timestamp_ms : ℚ) :
    List EventDetection :=
  probs.enum.filterMap fun (ip : ℕ × ℚ) =>
    match SPORTS_SOUNDS.lookup (labels.getD ip.1 "") with
    | some ev => if ip.2 > mkRat 3 10 then some ⟨ev, timestamp_ms, ip.2⟩ else none
    | none => none

/-- The deduplication loop of api.py lines 334-340, with the accumulator
    kept in reverse order so that its head is Python's `deduped[-1]`:
    append when the gap to the last kept event exceeds `wm`, otherwise
    replace the last kept event when the new one is strictly stronger,
    otherwise drop the new one. -/
def dedupRevAux (wm : ℚ) (acc : List EventDetection) :
    List EventDetection → List EventDetection
  | [] => acc
  | e :: rest =>
    match acc with
    | [] => dedupRevAux wm [e] rest
    | last :: prev =>
      if e.timestamp_ms - last.timestamp_ms > wm then
        dedupRevAux wm (e :: last :: prev) rest
      else if e.confidence > last.confidence then
        dedupRevAux wm (e :: prev) rest
      else
        dedupRevAux wm (last :: prev) rest

/-- `deduped` as computed by api.py lines 334-340, in Python's order. -/
def dedup (wm : ℚ) (xs : List EventDetection) : List EventDetection :=
  (dedupRevAux wm [] xs).reverse

/-- `np.argsort(probs)` (api.py line 243), modelled as a stable ascending
    argsort: vocabulary indices ordered by probability, equal probabilities
    keeping their original index order. -/
def argsortAsc (probs : List ℚ) : List ℕ :=
  List.insertionSort (fun i j => probs.getD i 0 ≤ probs.getD j 0) (List.range probs.length)

/-- `np.argsort(probs)[-top_k:][::-1]` (api.py line 243). The Python slice
    `a[-k:]` keeps the last `k` entries when `k > 0` (all of them when
    `k > len(a)`); when `k ≤ 0` it is `a[(-k):]`, dropping the first `-k`
    entries (in particular `a[-0:]` is the whole array). -/
def topIndices (probs : List ℚ) (top_k : ℤ) : List ℕ :=
  (if top_k > 0 then (argsortAsc probs).drop ((argsortAsc probs).length - top_k.toNat)
   else (argsortAsc probs).drop (-top_k).toNat).reverse

/-- The `tags` list comprehension of api.py lines 245-249: walk the selected
    indices in order and keep those whose probability is strictly above 0.05. -/
def classifyTags (labels : List String) (probs : List ℚ) (top_k : ℤ) : List TagResult :=
  (topIndices probs top_k).filterMap fun i =>
    if probs.getD i 0 > mkRat 1 20 then some ⟨labels.getD i "", probs.getD i 0⟩ else none

/-- Outcome of a request handler: a response or a raised error code. -/
inductive HandlerResult (α : Type) where
  | ok : α → HandlerResult α
  | error : String → HandlerResult α
deriving Repr, DecidableEq

/-- The detection loop of api.py lines 315-332 with a fallible classifier:
    each window chunk `audio[start:start+window_samples]` is classified in
    start order and the whole computation fails on the first inference
    failure, as an uncaught exception aborts the Python loop. -/
def collectDetected (labels : List String) (infer : List ℚ → Option (List ℚ))
    (audio : List ℚ) (window_ms : ℕ) : Option (List EventDetection) :=
  (windowStarts audio.length (window_ms * 32)).foldlM
    (fun acc start =>
      (infer ((audio.drop start).take (window_ms * 32))).map fun probs =>
        acc ++ windowCandidates labels probs (((start : ℚ) / 32000) * 1000))
    []

/-- The detect endpoint pipeline (api.py lines 267-342) with a total
    classifier, after a successful decode at sr = 32000:
    `window_samples = int(window_ms * 32000 / 1000) = window_ms * 32`,
    sliding-window candidates, then deduplication. The `events` request
    parameter (line 270) is bound but never consulted by the body. -/
def detect_events (labels : List String) (inference : List ℚ → List ℚ)
    (audio : List ℚ) (events : Option (List String)) (window_ms : ℕ) : DetectResponse :=
  let window_samples := window_ms * 32
  let detected := (windowStarts audio.length window_samples).flatMap fun start =>
    windowCandidates labels (inference ((audio.drop start).take window_samples))
      (((start : ℚ) / 32000) * 1000)
  ⟨dedup (window_ms : ℚ) detected, (audio.length : ℚ) / 32000⟩

/-- Control-flow model of the classify handler (api.py lines 196-264),
    returning the outcome plus a flag telling whether the temporary file
    created at line 211 (NamedTemporaryFile with delete=False) still exists
    when the handler exits. The filename check (line 203) runs before the
    file is created; the empty-payload check (lines 213-218) raises inside
    the with-block, before the try block whose finally clause (lines
    262-264) unlinks the file; decode failure (lines 224-232), inference
    failure (lines 253-261) and success all pass through that finally. -/
def classify_audio_run (filename : String) (content : List ℕ)
    (decode : Option (List ℚ)) (infer : List ℚ → Option (List ℚ))
    (labels : List String) (top_k : ℤ) : HandlerResult ClassifyResponse × Bool :=
  if filename = "" then (.error "VALIDATION_MISSING_FIELD", false)
  else if content.length = 0 then (.error "LISTEN_INVALID_AUDIO_FORMAT", true)
  else
    match decode with
    | none => (.error "LISTEN_INVALID_AUDIO_FORMAT", false)
    | some audio =>
      match infer audio with
      | none => (.error "LISTEN_CLASSIFICATION_FAILED", false)
      | some probs =>
        (.ok ⟨classifyTags labels probs top_k, (audio.length : ℚ) / 32000⟩, false)

/-- Control-flow model of the detect handler (api.py lines 267-355), with
    the same temporary-file flag as `classify_audio_run`: the handler has
    the identical create/with/try/finally structure (lines 283-292 and
    294-355). -/
def detect_events_run (filename : String) (content : List ℕ)
    (decode : Option (List ℚ)) (infer : List ℚ → Option (List ℚ))
    (labels : List String) (events : Option (List String)) (window_ms : ℕ) :
    HandlerResult DetectResponse × Bool :=
  if filename = "" then (.error "VALIDATION_MISSING_FIELD", false)
  else if content.length = 0 then (.error "LISTEN_INVALID_AUDIO_FORMAT", true)
  else
    match decode with
    | none => (.error "LISTEN_INVALID_AUDIO_FORMAT", false)
    | some audio =>
      match collectDetected labels infer audio window_ms with
      | none => (.error "LISTEN_CLASSIFICATION_FAILED", false)
      | some detected =>
        (.ok ⟨dedup (window_ms : ℚ) detected, (audio.length : ℚ) / 32000⟩, false)

/-- Rename an event, leaving timestamp and confidence untouched. -/
def renameEvent (f : String → String) (e : EventDetection) : EventDetection :=
  ⟨f e.event, e.timestamp_ms, e.confidence⟩

/- ### Properties of the deduplication loop -/

/-- Timestamp of a renamed event is unchanged. -/
lemma renameEvent_timestamp (f : String → String) (e : EventDetection) :
    (renameEvent f e).timestamp_ms = e.timestamp_ms := rfl

/-- Confidence of a renamed event is unchanged. -/
lemma renameEvent_confidence (f : String → String) (e : EventDetection) :
    (renameEvent f e).confidence = e.confidence := rfl

/-- Loop invariant of the dedup pass: if the pending candidates are sorted by
    timestamp, the reversed accumulator has strictly-more-than-`wm` gaps, and
    the most recent kept event is no later than every pending candidate, then
    the final reversed accumulator has strictly-more-than-`wm` gaps. -/
lemma dedupRevAux_chain' (wm : ℚ) :
    ∀ (xs acc : List EventDetection),
      xs.Pairwise (fun a b => a.timestamp_ms ≤ b.timestamp_ms) →
      acc.Chain' (fun a b => a.timestamp_ms - b.timestamp_ms > wm) →
      (∀ l, acc.head? = some l → ∀ e ∈ xs, l.timestamp_ms ≤ e.timestamp_ms) →
      (dedupRevAux wm acc xs).Chain' (fun a b => a.timestamp_ms - b.timestamp_ms > wm) := by
  intro xs
  induction xs with
  | nil => intro acc _ hacc _; simpa [dedupRevAux] using hacc
  | cons e rest ih =>
    intro acc hxs hacc hhead
    obtain ⟨he, hrest⟩ := List.pairwise_cons.mp hxs
    match acc with
    | [] =>
      simp only [dedupRevAux]
      refine ih [e] hrest (by simp) ?_
      intro l hl x hx
      simp only [List.head?_cons, Option.some.injEq] at hl
      exact hl ▸ he x hx
    | last :: prev =>
      simp only [dedupRevAux]
      have hle : last.timestamp_ms ≤ e.timestamp_ms := hhead last rfl e (by simp)
      by_cases h1 : e.timestamp_ms - last.timestamp_ms > wm
      · rw [if_pos h1]
        refine ih (e :: last :: prev) hrest (List.chain'_cons.mpr ⟨h1, hacc⟩) ?_
        intro l hl x hx
        simp only [List.head?_cons, Option.some.injEq] at hl
        exact hl ▸ he x hx
      · rw [if_neg h1]
        by_cases h2 : e.confidence > last.confidence
        · rw [if_pos h2]
          refine ih (e :: prev) hrest ?_ ?_
          · cases prev with
            | nil => simp
            | cons p ps =>
              have hlp : last.timestamp_ms - p.timestamp_ms > wm := (List.chain'_cons.mp hacc).1
              exact List.chain'_cons.mpr ⟨by linarith, (List.chain'_cons.mp hacc).2⟩
          · intro l hl x hx
            simp only [List.head?_cons, Option.some.injEq] at hl
            exact hl ▸ he x hx
        · rw [if_neg h2]
          refine ih (last :: prev) hrest hacc ?_
          intro l hl x hx
          simp only [List.head?_cons, Option.some.injEq] at hl
          have := he x hx
          subst hl
          linarith

/-- The dedup output, in Python's order, has strictly-more-than-`wm` gaps
    between consecutive kept events whenever the input is timestamp-sorted. -/
lemma dedup_gaps (wm : ℚ) (xs : List EventDetection)
    (hxs : xs.Pairwise (fun a b => a.timestamp_ms ≤ b.timestamp_ms)) :
    (dedup wm xs).Chain' (fun a b => b.timestamp_ms - a.timestamp_ms > wm) := by
  unfold dedup
  refine List.chain'_reverse.mpr ?_
  exact dedupRevAux_chain' wm xs [] hxs (by simp) (by simp)

/-- When the remaining candidates already keep strictly-more-than-`wm` gaps
    from the last kept event onwards, the loop appends every one of them. -/
lemma dedupRevAux_of_gaps (wm : ℚ) :
    ∀ (ys : List EventDetection) (last : EventDetection) (prev : List EventDetection),
      (last :: ys).Chain' (fun a b => b.timestamp_ms - a.timestamp_ms > wm) →
      dedupRevAux wm (last :: prev) ys = ys.reverse ++ last :: prev := by
  intro ys
  induction ys with
  | nil => intro last prev _; simp [dedupRevAux]
  | cons e rest ih =>
    intro last prev hch
    obtain ⟨h1, h2⟩ := List.chain'_cons.mp hch
    simp only [dedupRevAux]
    rw [if_pos h1, ih e (last :: prev) h2]
    simp

/-- A list whose consecutive gaps already exceed `wm` is a fixed point of
    the dedup pass. -/
lemma dedup_of_gaps (wm : ℚ) (ys : List EventDetection)
    (h : ys.Chain' (fun a b => b.timestamp_ms - a.timestamp_ms > wm)) :
    dedup wm ys = ys := by
  cases ys with
  | nil => rfl
  | cons a rest =>
    unfold dedup
    simp only [dedupRevAux]
    rw [dedupRevAux_of_gaps wm rest a [] h]
    simp

/-- Renaming events commutes with each step of the dedup loop. -/
lemma dedupRevAux_map_rename (wm : ℚ) (f : String → String) :
    ∀ (xs acc : List EventDetection),
      dedupRevAux wm (acc.map (renameEvent f)) (xs.map (renameEvent f)) =
        (dedupRevAux wm acc xs).map (renameEvent f) := by
  intro xs
  induction xs with
  | nil => intro acc; simp [dedupRevAux]
  | cons e rest ih =>
    intro acc
    cases acc with
    | nil =>
      simp only [List.map_nil, List.map_cons, dedupRevAux]
      simpa using ih [e]
    | cons last prev =>
      simp only [List.map_cons, dedupRevAux, renameEvent_timestamp, renameEvent_confidence]
      by_cases h1 : e.timestamp_ms - last.timestamp_ms > wm
      · rw [if_pos h1, if_pos h1]
        simpa using ih (e :: last :: prev)
      · rw [if_neg h1, if_neg h1]
        by_cases h2 : e.confidence > last.confidence
        · rw [if_pos h2, if_pos h2]
          simpa using ih (e :: prev)
        · rw [if_neg h2, if_neg h2]
          simpa using ih (last :: prev)

section ConcreteEvaluation

attribute [local semireducible] Rat.add Rat.sub Rat.mul Rat.inv

/-- C6: for every candidate sequence ordered by non-decreasing timestamp,
    any two consecutive events kept by the dedup loop of api.py lines
    334-340 are strictly more than `wm` (the windowMs merge radius) apart. -/
theorem dedup_consecutive_gap (wm : ℚ) (xs : List EventDetection)
    (hxs : xs.Pairwise (fun a b => a.timestamp_ms ≤ b.timestamp_ms)) :
    (dedup wm xs).Chain' (fun a b => b.timestamp_ms - a.timestamp_ms > wm) :=
  dedup_gaps wm xs hxs

/-- Witness for C6 at a concrete timestamp-sorted input. -/
theorem dedup_consecutive_gap_witness :
    (dedup 500 [⟨"bounce", 0, mkRat 2 5⟩, ⟨"hit", 300, mkRat 3 5⟩, ⟨"point", 900, mkRat 1 2⟩]).Chain'
      (fun a b => b.timestamp_ms - a.timestamp_ms > 500) :=
  dedup_consecutive_gap 500
    [⟨"bounce", 0, mkRat 2 5⟩, ⟨"hit", 300, mkRat 3 5⟩, ⟨"point", 900, mkRat 1 2⟩]
    (by decide)

/-- C7: the dedup pass of api.py lines 334-340 is idempotent on every
    candidate sequence ordered by non-decreasing timestamp. -/
theorem dedup_idempotent (wm : ℚ) (xs : List EventDetection)
    (hxs : xs.Pairwise (fun a b => a.timestamp_ms ≤ b.timestamp_ms)) :
    dedup wm (dedup wm xs) = dedup wm xs :=
  dedup_of_gaps wm (dedup wm xs) (dedup_gaps wm xs hxs)

/-- Witness for C7 at a concrete timestamp-sorted input. -/
theorem dedup_idempotent_witness :
    dedup 500 (dedup 500 [⟨"bounce", 0, mkRat 2 5⟩, ⟨"hit", 300, mkRat 3 5⟩, ⟨"game", 1200, mkRat 1 2⟩]) =
      dedup 500 [⟨"bounce", 0, mkRat 2 5⟩, ⟨"hit", 300, mkRat 3 5⟩, ⟨"game", 1200, mkRat 1 2⟩] :=
  dedup_idempotent 500
    [⟨"bounce", 0, mkRat 2 5⟩, ⟨"hit", 300, mkRat 3 5⟩, ⟨"game", 1200, mkRat 1 2⟩]
    (by decide)

/-- C8: on two timestamp-ordered candidates the dedup loop keeps a single
    event, the stronger one (the later one exactly when it is strictly
    stronger), when they are at most `wm` apart, and keeps both when they
    are strictly more than `wm` apart. -/
theorem dedup_pair (wm : ℚ) (e1 e2 : EventDetection)
    (hord : e1.timestamp_ms ≤ e2.timestamp_ms) :
    (e2.timestamp_ms - e1.timestamp_ms ≤ wm →
      dedup wm [e1, e2] = [if e1.confidence < e2.confidence then e2 else e1]) ∧
    (e2.timestamp_ms - e1.timestamp_ms > wm → dedup wm [e1, e2] = [e1, e2]) := by
  constructor
  · intro h
    have h1 : ¬ (e2.timestamp_ms - e1.timestamp_ms > wm) := not_lt.mpr h
    by_cases h2 : e1.confidence < e2.confidence
    · simp [dedup, dedupRevAux, if_neg h1, if_pos h2]
    · simp [dedup, dedupRevAux, if_neg h1, if_neg h2]
  · intro h1
    simp [dedup, dedupRevAux, if_pos h1]

/-- Witness for C8: scenario B (candidates at 0 ms with confidence 0.4 and
    300 ms with confidence 0.6, windowMs 500, merged into the later and
    stronger one) and scenario C (candidates 0 ms and 600 ms, both kept). -/
theorem dedup_pair_witness :
    dedup 500 [⟨"bounce", 0, mkRat 2 5⟩, ⟨"bounce", 300, mkRat 3 5⟩] = [⟨"bounce", 300, mkRat 3 5⟩] ∧
    dedup 500 [⟨"hit", 0, mkRat 2 5⟩, ⟨"hit", 600, mkRat 3 5⟩] = [⟨"hit", 0, mkRat 2 5⟩, ⟨"hit", 600, mkRat 3 5⟩] := by
  constructor
  · have h := (dedup_pair 500 ⟨"bounce", 0, mkRat 2 5⟩ ⟨"bounce", 300, mkRat 3 5⟩ (by decide)).1 (by decide)
    rw [h]
    rw [if_pos (by decide : (mkRat 2 5 : ℚ) < mkRat 3 5)]
  · exact (dedup_pair 500 ⟨"hit", 0, mkRat 2 5⟩ ⟨"hit", 600, mkRat 3 5⟩ (by decide)).2 (by decide)

/-- C10: the dedup loop of api.py lines 334-340 never consults event names:
    renaming every candidate commutes with deduplication, and a concrete
    nearby stronger event of a different name displaces the kept event. -/
theorem dedup_ignores_names :
    (∀ (f : String → String) (wm : ℚ) (xs : List EventDetection),
      dedup wm (xs.map (renameEvent f)) = (dedup wm xs).map (renameEvent f)) ∧
    dedup 500 [⟨"bounce", 0, mkRat 2 5⟩, ⟨"voice", 300, mkRat 3 5⟩] = [⟨"voice", 300, mkRat 3 5⟩] := by
  constructor
  · intro f wm xs
    unfold dedup
    have h := dedupRevAux_map_rename wm f xs []
    simp only [List.map_nil] at h
    rw [h, List.map_reverse]
  · decide

end ConcreteEvaluation

section ConcreteEvaluationTwo

attribute [local semireducible] Rat.add Rat.sub Rat.mul Rat.inv

/-- C9: the `events` filter parameter of the detect operation is a no-op:
    two invocations differing only in that parameter produce the identical
    response (same event timeline and same duration). -/
theorem detect_events_filter_noop (labels : List String) (inference : List ℚ → List ℚ)
    (audio : List ℚ) (window_ms : ℕ) (ev1 ev2 : Option (List String)) :
    detect_events labels inference audio ev1 window_ms =
      detect_events labels inference audio ev2 window_ms := rfl

/-- C1: evaluating the sliding-window loop of api.py line 317 at boundary
    clip lengths. With window_ms = 500 at sr = 32000 the window is
    W = 16000 samples and the hop is H = 8000. A clip of exactly W samples
    is classified in 0 windows, not the 1 window the claim requires; a clip
    of W + H samples gives 1 window, not 2; a clip of 2W samples gives the
    starts [0, 8000] only, dropping the final full window at start 16000. -/
theorem windowStarts_boundary_eval :
    (windowStarts 16000 16000).length = 0 ∧
    (windowStarts 24000 16000).length = 1 ∧
    windowStarts 32000 16000 = [0, 8000] := by decide

/-- C2: the temporary-file flag of the handler models at each exit path.
    A named upload with an empty payload leaves the temporary file behind
    in both handlers (the raise at api.py lines 213-218 and 285-290 happens
    before the try/finally), while a missing filename, a decode failure,
    an inference failure and success all leave no file behind. -/
theorem temp_cleanup_eval :
    (classify_audio_run "audio.wav" [] none (fun _ => none) [] 10).2 = true ∧
    (detect_events_run "audio.wav" [] none (fun _ => none) [] none 500).2 = true ∧
    (classify_audio_run "" [] none (fun _ => none) [] 10).2 = false ∧
    (classify_audio_run "audio.wav" [1] none (fun _ => none) [] 10).2 = false ∧
    (classify_audio_run "audio.wav" [1] (some [0]) (fun _ => none) [] 10).2 = false ∧
    (classify_audio_run "audio.wav" [1] (some [0]) (fun _ => some [mkRat 1 2]) ["A"] 10).2 = false := by
  refine ⟨rfl, rfl, rfl, rfl, rfl, rfl⟩

end ConcreteEvaluationTwo

/- ### Properties of the top-k tag selection -/

/-- Lexicographic order on vocabulary indices produced by a stable ascending
    argsort: strictly smaller probability first, ties by ascending index. -/
def pLex (probs : List ℚ) (i j : ℕ) : Prop :=
  probs.getD i 0 < probs.getD j 0 ∨ (probs.getD i 0 = probs.getD j 0 ∧ i < j)

/-- Inserting an index smaller than every index of a lex-sorted list keeps
    the list lex-sorted. -/
lemma orderedInsert_pairwise_lex (probs : List ℚ) (a : ℕ) :
    ∀ (s : List ℕ), s.Pairwise (pLex probs) → (∀ b ∈ s, a < b) →
      (List.orderedInsert (fun i j => probs.getD i 0 ≤ probs.getD j 0) a s).Pairwise (pLex probs) := by
  intro s
  induction s with
  | nil => intro _ _; simp [pLex]
  | cons b s' ih =>
    intro hp hidx
    obtain ⟨hb, hs'⟩ := List.pairwise_cons.mp hp
    simp only [List.orderedInsert]
    by_cases hr : probs.getD a 0 ≤ probs.getD b 0
    · rw [if_pos hr]
      refine List.pairwise_cons.mpr ⟨?_, hp⟩
      intro x hx
      rcases List.mem_cons.mp hx with rfl | hx'
      · rcases lt_or_eq_of_le hr with hlt | heq
        · exact Or.inl hlt
        · exact Or.inr ⟨heq, hidx x (List.mem_cons_self _ _)⟩
      · have hbx : probs.getD b 0 ≤ probs.getD x 0 := by
          rcases hb x hx' with hlt | heq
          · exact le_of_lt hlt
          · exact le_of_eq heq.1
        rcases lt_or_eq_of_le (le_trans hr hbx) with hlt | heq
        · exact Or.inl hlt
        · exact Or.inr ⟨heq, hidx x (List.mem_cons_of_mem _ hx')⟩
    · rw [if_neg hr]
      refine List.pairwise_cons.mpr
        ⟨?_, ih hs' (fun c hc => hidx c (List.mem_cons_of_mem _ hc))⟩
      intro x hx
      rcases (List.mem_orderedInsert _).mp hx with rfl | hx'
      · exact Or.inl (not_le.mp hr)
      · exact hb x hx'

/-- The stable ascending argsort is lex-sorted: probabilities ascend, and
    equal probabilities keep ascending original index order. -/
lemma argsortAsc_pairwise (probs : List ℚ) : (argsortAsc probs).Pairwise (pLex probs) := by
  have key : ∀ (l : List ℕ), l.Pairwise (· < ·) →
      (List.insertionSort (fun i j => probs.getD i 0 ≤ probs.getD j 0) l).Pairwise (pLex probs) := by
    intro l
    induction l with
    | nil => intro _; simp [List.insertionSort]
    | cons a l' ih =>
      intro hp
      obtain ⟨ha, hl'⟩ := List.pairwise_cons.mp hp
      simp only [List.insertionSort]
      refine orderedInsert_pairwise_lex probs a _ (ih hl') ?_
      intro b hb
      exact ha b (((List.perm_insertionSort _ l').mem_iff).mp hb)
  exact key _ (List.pairwise_lt_range _)

/-- The argsort is a permutation of all vocabulary indices, so it has the
    vocabulary length. -/
lemma argsortAsc_length (probs : List ℚ) : (argsortAsc probs).length = probs.length := by
  unfold argsortAsc
  rw [List.length_insertionSort, List.length_range]

/-- Reading a list back at the index list `range` reproduces the list. -/
lemma map_getD_range (l : List ℚ) : (List.range l.length).map (fun i => l.getD i 0) = l := by
  induction l with
  | nil => rfl
  | cons a tl ih =>
    rw [List.length_cons, List.range_succ_eq_map, List.map_cons, List.map_map]
    exact congrArg (a :: ·) ih

/-- The probabilities read along the argsort are a permutation of the
    probability vector. -/
lemma argsortAsc_map_perm (probs : List ℚ) :
    List.Perm ((argsortAsc probs).map fun i => probs.getD i 0) probs := by
  have h1 : List.Perm (argsortAsc probs) (List.range probs.length) :=
    List.perm_insertionSort _ _
  have h2 := h1.map (fun i => probs.getD i 0)
  rwa [map_getD_range] at h2

/-- The probabilities read along the argsort ascend. -/
lemma argsortAsc_map_sorted (probs : List ℚ) :
    ((argsortAsc probs).map fun i => probs.getD i 0).Pairwise (· ≤ ·) := by
  rw [List.pairwise_map]
  refine (argsortAsc_pairwise probs).imp ?_
  intro i j hij
  rcases hij with hlt | heq
  · exact le_of_lt hlt
  · exact le_of_eq heq.1

/-- The selected index list is the reversal of a single suffix of the
    argsort, with the drop index determined by the sign of `top_k`. -/
lemma topIndices_eq_drop (probs : List ℚ) (top_k : ℤ) :
    topIndices probs top_k =
      ((argsortAsc probs).drop
        (if 0 < top_k then probs.length - top_k.toNat else (-top_k).toNat)).reverse := by
  unfold topIndices
  rw [argsortAsc_length]
  by_cases h : 0 < top_k
  · rw [if_pos h, if_pos h]
  · rw [if_neg h, if_neg h]

/-- The selected index list is reverse-lex-sorted: descending probability,
    ties by descending original index. -/
lemma topIndices_pairwise (probs : List ℚ) (top_k : ℤ) :
    (topIndices probs top_k).Pairwise (fun i j => pLex probs j i) := by
  unfold topIndices
  refine List.pairwise_reverse.mpr ?_
  split
  · exact (argsortAsc_pairwise probs).sublist (List.drop_sublist _ _)
  · exact (argsortAsc_pairwise probs).sublist (List.drop_sublist _ _)

/-- A filterMap by a guarded `some` is the map of a filter. -/
lemma filterMap_ite (p : ℕ → Prop) [DecidablePred p] (f : ℕ → TagResult) :
    ∀ (l : List ℕ),
      (l.filterMap fun i => if p i then some (f i) else none) =
        (l.filter (fun i => decide (p i))).map f := by
  intro l
  induction l with
  | nil => rfl
  | cons a l ih =>
    by_cases h : p a
    · simp [List.filterMap_cons, List.filter_cons, h, ih]
    · simp [List.filterMap_cons, List.filter_cons, h, ih]

/-- The tags list, rewritten as a filter of the selected indices followed by
    a map into tag results. -/
lemma classifyTags_eq_map_filter (labels : List String) (probs : List ℚ) (top_k : ℤ) :
    classifyTags labels probs top_k =
      ((topIndices probs top_k).filter (fun i => decide (probs.getD i 0 > mkRat 1 20))).map
        (fun i => (⟨labels.getD i "", probs.getD i 0⟩ : TagResult)) :=
  filterMap_ite _ _ _

/-- In an ascending-sorted list, counting entries above a threshold in a
    suffix saturates at the suffix length. -/
lemma countP_drop_sorted (t : ℚ) :
    ∀ (l : List ℚ), l.Pairwise (· ≤ ·) → ∀ (k : ℕ),
      ((l.drop k).countP fun x => decide (t < x)) =
        min (l.countP fun x => decide (t < x)) (l.length - k) := by
  intro l
  induction l with
  | nil => intro _ k; simp
  | cons a tl ih =>
    intro hp k
    obtain ⟨ha, htl⟩ := List.pairwise_cons.mp hp
    cases k with
    | zero =>
      have hc := List.countP_le_length (p := fun x => decide (t < x)) (l := a :: tl)
      simp only [List.drop_zero, Nat.sub_zero]
      omega
    | succ k' =>
      rw [List.drop_succ_cons, ih htl k', List.countP_cons, List.length_cons]
      by_cases hta : t < a
      · have hall : tl.countP (fun x => decide (t < x)) = tl.length := by
          refine List.countP_eq_length.mpr ?_
          intro x hx
          simpa using lt_of_lt_of_le hta (ha x hx)
        have hc' := List.countP_le_length (p := fun x => decide (t < x)) (l := tl)
        rw [if_pos (decide_eq_true hta)]
        omega
      · rw [if_neg (by simpa using hta)]
        omega

/-- For a positive `top_k`, the tags list has length
    min(top_k, count of probabilities strictly above 0.05). -/
lemma classifyTags_length_pos (labels : List String) (probs : List ℚ) (top_k : ℤ)
    (h : 0 < top_k) :
    (classifyTags labels probs top_k).length =
      min top_k.toNat (probs.countP fun p => decide (mkRat 1 20 < p)) := by
  rw [classifyTags_eq_map_filter, List.length_map, ← List.countP_eq_length_filter]
  have hrev : (topIndices probs top_k).countP (fun i => decide (probs.getD i 0 > mkRat 1 20)) =
      ((argsortAsc probs).drop (probs.length - top_k.toNat)).countP
        (fun i => decide (probs.getD i 0 > mkRat 1 20)) := by
    rw [topIndices_eq_drop, if_pos h]
    exact (List.reverse_perm _).countP_eq _
  rw [hrev]
  have hmap : ((argsortAsc probs).drop (probs.length - top_k.toNat)).countP
      (fun i => decide (probs.getD i 0 > mkRat 1 20)) =
      (((argsortAsc probs).map (fun i => probs.getD i 0)).drop
        (probs.length - top_k.toNat)).countP (fun x => decide (mkRat 1 20 < x)) := by
    rw [← List.map_drop, List.countP_map]
    rfl
  rw [hmap, countP_drop_sorted (mkRat 1 20) _ (argsortAsc_map_sorted probs)
        (probs.length - top_k.toNat),
      (argsortAsc_map_perm probs).countP_eq, List.length_map, argsortAsc_length]
  have hcle := List.countP_le_length (p := fun x => decide (mkRat 1 20 < x)) (l := probs)
  omega

/-- Tags lists agree whenever the selected index lists agree. -/
lemma classifyTags_congr (labels : List String) (probs : List ℚ) (a b : ℤ)
    (hab : topIndices probs a = topIndices probs b) :
    classifyTags labels probs a = classifyTags labels probs b := by
  unfold classifyTags
  rw [hab]

/-- C3 (corrected): the topK slice arithmetic of api.py line 243. A topK
    above the vocabulary size is clamped to the vocabulary size; topK = 0
    selects the whole vocabulary (Python `a[-0:]` is `a[0:]`); a negative
    topK selects the vocabularySize + topK largest entries, so it selects
    nothing only once topK ≤ -vocabularySize. -/
theorem classify_topk_clamp (labels : List String) (probs : List ℚ) (top_k : ℤ) :
    ((probs.length : ℤ) < top_k →
      classifyTags labels probs top_k = classifyTags labels probs (probs.length : ℤ)) ∧
    classifyTags labels probs 0 = classifyTags labels probs (probs.length : ℤ) ∧
    (top_k ≤ -(probs.length : ℤ) → classifyTags labels probs top_k = []) ∧
    (-(probs.length : ℤ) < top_k → top_k ≤ 0 →
      classifyTags labels probs top_k = classifyTags labels probs ((probs.length : ℤ) + top_k)) := by
  refine ⟨?_, ?_, ?_, ?_⟩
  · intro h
    refine classifyTags_congr labels probs _ _ ?_
    rw [topIndices_eq_drop, topIndices_eq_drop]
    have : (if 0 < top_k then probs.length - top_k.toNat else (-top_k).toNat) =
        (if 0 < (probs.length : ℤ) then probs.length - ((probs.length : ℤ)).toNat
         else (-(probs.length : ℤ)).toNat) := by
      split_ifs <;> omega
    rw [this]
  · refine classifyTags_congr labels probs _ _ ?_
    rw [topIndices_eq_drop, topIndices_eq_drop]
    have : (if 0 < (0 : ℤ) then probs.length - (0 : ℤ).toNat else (-(0 : ℤ)).toNat) =
        (if 0 < (probs.length : ℤ) then probs.length - ((probs.length : ℤ)).toNat
         else (-(probs.length : ℤ)).toNat) := by
      split_ifs <;> omega
    rw [this]
  · intro h
    have hidx : topIndices probs top_k = [] := by
      rw [topIndices_eq_drop]
      have hcond : ¬ 0 < top_k := by omega
      rw [if_neg hcond, List.drop_eq_nil_of_le (by rw [argsortAsc_length]; omega)]
      rfl
    rw [classifyTags_eq_map_filter, hidx]
    rfl
  · intro h1 h2
    refine classifyTags_congr labels probs _ _ ?_
    rw [topIndices_eq_drop, topIndices_eq_drop]
    have : (if 0 < top_k then probs.length - top_k.toNat else (-top_k).toNat) =
        (if 0 < (probs.length : ℤ) + top_k then probs.length - ((probs.length : ℤ) + top_k).toNat
         else (-((probs.length : ℤ) + top_k)).toNat) := by
      split_ifs <;> omega
    rw [this]

/-- Witness for C3: clamp at topK = 5 over a two-entry vocabulary, and the
    empty selection at topK = -2. -/
theorem classify_topk_clamp_witness :
    classifyTags ["A", "B"] [mkRat 9 10, mkRat 1 2] 5 =
      classifyTags ["A", "B"] [mkRat 9 10, mkRat 1 2] 2 ∧
    classifyTags ["A", "B"] [mkRat 9 10, mkRat 1 2] (-2) = [] := by
  constructor
  · exact (classify_topk_clamp ["A", "B"] [mkRat 9 10, mkRat 1 2] 5).1 (by decide)
  · exact (classify_topk_clamp ["A", "B"] [mkRat 9 10, mkRat 1 2] (-2)).2.2.1 (by decide)

/-- C3 counterexample: with topK = 0 the claim demands an empty tag list,
    but the code returns every entry above the 0.05 floor. -/
theorem classify_topk_zero_counterexample :
    classifyTags ["A", "B"] [mkRat 9 10, mkRat 1 2] 0 ≠ [] ∧
    classifyTags ["A", "B"] [mkRat 9 10, mkRat 1 2] 0 =
      [⟨"A", mkRat 9 10⟩, ⟨"B", mkRat 1 2⟩] := by
  constructor
  · decide
  · decide

/-- C4 (corrected): the tags list is the filtered selection mapped into tag
    results, and the filtered selection is ordered by strictly descending
    probability with ties ordered by DESCENDING original vocabulary index
    (ascending stable sort followed by reversal reverses tie groups). -/
theorem classify_tie_order (labels : List String) (probs : List ℚ) (top_k : ℤ) :
    classifyTags labels probs top_k =
      ((topIndices probs top_k).filter (fun i => decide (probs.getD i 0 > mkRat 1 20))).map
        (fun i => (⟨labels.getD i "", probs.getD i 0⟩ : TagResult)) ∧
    ((topIndices probs top_k).filter
        (fun i => decide (probs.getD i 0 > mkRat 1 20))).Pairwise
      (fun i j => probs.getD j 0 < probs.getD i 0 ∨
        (probs.getD j 0 = probs.getD i 0 ∧ j < i)) := by
  refine ⟨classifyTags_eq_map_filter labels probs top_k, ?_⟩
  exact (topIndices_pairwise probs top_k).filter _

/-- C4 counterexample: two equal probabilities, topK = 2. The claim demands
    ascending original index order A before B; the code returns B before A. -/
theorem classify_tie_order_counterexample :
    classifyTags ["A", "B"] [mkRat 1 2, mkRat 1 2] 2 =
      [⟨"B", mkRat 1 2⟩, ⟨"A", mkRat 1 2⟩] ∧
    classifyTags ["A", "B"] [mkRat 1 2, mkRat 1 2] 2 ≠
      [⟨"A", mkRat 1 2⟩, ⟨"B", mkRat 1 2⟩] := by
  constructor
  · decide
  · decide

/-- C5: for every probability vector and topK > 0 the tags list has exactly
    min(topK, count of probabilities strictly above 0.05) entries, each with
    confidence strictly above 0.05, in descending confidence order; and the
    spec's scenario E evaluates to [A(0.9), C(0.5), E(0.3)]. -/
theorem classify_topk_contents (labels : List String) (probs : List ℚ) (top_k : ℤ)
    (h : 0 < top_k) :
    (classifyTags labels probs top_k).length =
      min top_k.toNat (probs.countP fun p => decide (mkRat 1 20 < p)) ∧
    (∀ t ∈ classifyTags labels probs top_k, mkRat 1 20 < t.confidence) ∧
    (classifyTags labels probs top_k).Pairwise
      (fun t u => u.confidence ≤ t.confidence) ∧
    classifyTags ["A", "B", "C", "D", "E"]
        [mkRat 9 10, mkRat 1 20, mkRat 1 2, mkRat 1 100, mkRat 3 10] 3 =
      [⟨"A", mkRat 9 10⟩, ⟨"C", mkRat 1 2⟩, ⟨"E", mkRat 3 10⟩] := by
  refine ⟨classifyTags_length_pos labels probs top_k h, ?_, ?_, by decide⟩
  · intro t ht
    rw [classifyTags_eq_map_filter] at ht
    obtain ⟨i, hi, rfl⟩ := List.mem_map.mp ht
    have := List.of_mem_filter hi
    simpa using of_decide_eq_true this
  · rw [classifyTags_eq_map_filter, List.pairwise_map]
    refine ((topIndices_pairwise probs top_k).filter _).imp ?_
    intro i j hij
    rcases hij with hlt | heq
    · exact le_of_lt hlt
    · exact le_of_eq heq.1

/-- Witness for C5 at the spec's scenario E input. -/
theorem classify_topk_contents_witness :
    (classifyTags ["A", "B", "C", "D", "E"]
        [mkRat 9 10, mkRat 1 20, mkRat 1 2, mkRat 1 100, mkRat 3 10] 3).length =
      min (Int.toNat 3)
        ([mkRat 9 10, mkRat 1 20, mkRat 1 2, mkRat 1 100, mkRat 3 10].countP
          fun p => decide (mkRat 1 20 < p)) ∧
    (∀ t ∈ classifyTags ["A", "B", "C", "D", "E"]
        [mkRat 9 10, mkRat 1 20, mkRat 1 2, mkRat 1 100, mkRat 3 10] 3,
      mkRat 1 20 < t.confidence) ∧
    (classifyTags ["A", "B", "C", "D", "E"]
        [mkRat 9 10, mkRat 1 20, mkRat 1 2, mkRat 1 100, mkRat 3 10] 3).Pairwise
      (fun t u => u.confidence ≤ t.confidence) ∧
    classifyTags ["A", "B", "C", "D", "E"]
        [mkRat 9 10, mkRat 1 20, mkRat 1 2, mkRat 1 100, mkRat 3 10] 3 =
      [⟨"A", mkRat 9 10⟩, ⟨"C", mkRat 1 2⟩, ⟨"E", mkRat 3 10⟩] :=
  classify_topk_contents ["A", "B", "C", "D", "E"]
    [mkRat 9 10, mkRat 1 20, mkRat 1 2, mkRat 1 100, mkRat 3 10] 3 (by decide)
